import Mathlib

/-!
Verification of the computational core of `pcbnew_easy.py` (kicad-python).

The file embeds, as Lean definitions, the unit-conversion helpers
(`inch_to_mm`, `mm_to_inch`, `rotate`), the layer name/index dictionaries
(`layer_dict`, `layer_names`, `_get_layer`), the layer-set codec
(`_to_LayerSet`, `_from_LayerSet`) together with models of the host
primitives they call (`LSET.ParseHex`, `LSET.FmtBin`, Python's
`'{0:013x}'.format`), and the board/module construction helpers the claims
are about (`add_arc`, `add_track`, `add_polyline`, the pad orientation
property).  Numeric values are modelled with exact arithmetic (`ℚ`, `ℝ`);
Python exceptions (KeyError) are modelled with `Option`.
-/

namespace PcbnewEasy

/-! ## Layer table, `layer_dict`, `layer_names`, `_get_layer`

The layer table is the host's ordered list of standard layer names,
`[BOARD_GetStandardLayerName(n) for n in range(LAYER_ID_COUNT)]`.  It is a
parameter `table : List String` here.  The source builds
`layer_dict = {pcbnew.BOARD_GetStandardLayerName(n):n for n in range(pcbnew.LAYER_ID_COUNT)}`:
a Python dict comprehension in which a later index overwrites an earlier one
for an equal name, so a lookup returns the last matching index. -/

/-- An argument passed to `_get_layer`: Python is dynamically typed, the
callers hand either a layer name (a string) or an integer layer id. -/
inductive LayerArg where
  | name (s : String)
  | idx (n : Nat)
deriving DecidableEq

/-- `layer_dict[s]`: the dict built by
`{BOARD_GetStandardLayerName(n): n for n in range(LAYER_ID_COUNT)}`,
looked up at key `s`.  Insertion is in index order and a later insertion
wins, hence the left fold over `range`; `none` models a `KeyError`. -/
def layer_dict (table : List String) (s : String) : Option Nat :=
  (List.range table.length).foldl
    (fun acc n => if table.getD n "" = s then some n else acc) none

/-- `layer_names[i]`: the inverse dict `{s:n for n, s in layer_dict.iteritems()}`
looked up at key `i`; it returns a name `s` whose `layer_dict` entry is `i`,
`none` models a `KeyError`. -/
def layer_names (table : List String) (i : Nat) : Option String :=
  table.foldl
    (fun acc s => if layer_dict table s = some i then some s else acc) none

/-- `_get_layer(s)` is `layer_dict[s]`.  The dict's keys are the layer-name
strings, so an integer argument is never a key and raises `KeyError`
(modelled by `none`) — despite the docstring "If it is already an int just
return it". -/
def _get_layer (table : List String) : LayerArg → Option Nat
  | .name s => layer_dict table s
  | .idx _ => none

/-! ## Generic lemmas about the `if P a then some a else acc` fold -/

theorem foldl_choice_eq_none {α : Type _} {P : α → Prop} [DecidablePred P] :
    ∀ (L : List α), (∀ a ∈ L, ¬ P a) →
      L.foldl (fun acc a => if P a then some a else acc) none = none
  | [], _ => rfl
  | a :: L, h => by
      rw [List.foldl_cons, if_neg (h a (List.mem_cons_self a L))]
      exact foldl_choice_eq_none L fun b hb => h b (List.mem_cons_of_mem a hb)

theorem foldl_choice_some {α : Type _} {P : α → Prop} [DecidablePred P]
    {L : List α} {acc : Option α} {x : α}
    (h : L.foldl (fun acc a => if P a then some a else acc) acc = some x) :
    (x ∈ L ∧ P x) ∨ acc = some x := by
  induction L generalizing acc with
  | nil => exact Or.inr h
  | cons a L ih =>
      rw [List.foldl_cons] at h
      rcases ih h with h' | h'
      · exact Or.inl ⟨List.mem_cons_of_mem a h'.1, h'.2⟩
      · by_cases hPa : P a
        · rw [if_pos hPa] at h'
          have hax : a = x := Option.some.inj h'
          subst hax
          exact Or.inl ⟨List.mem_cons_self _ _, hPa⟩
        · rw [if_neg hPa] at h'
          exact Or.inr h'

theorem foldl_choice_isSome {α : Type _} {P : α → Prop} [DecidablePred P]
    {L : List α} {acc : Option α} (h : acc.isSome) :
    (L.foldl (fun acc a => if P a then some a else acc) acc).isSome := by
  induction L generalizing acc with
  | nil => exact h
  | cons a L ih =>
      rw [List.foldl_cons]
      by_cases hPa : P a
      · exact ih (by rw [if_pos hPa]; rfl)
      · rw [if_neg hPa]; exact ih h

theorem foldl_choice_isSome_of_mem {α : Type _} {P : α → Prop} [DecidablePred P]
    {L : List α} {acc : Option α} {x : α} (hx : x ∈ L) (hP : P x) :
    (L.foldl (fun acc a => if P a then some a else acc) acc).isSome := by
  induction L generalizing acc with
  | nil => cases hx
  | cons a L ih =>
      rw [List.foldl_cons]
      rcases List.mem_cons.1 hx with rfl | hx'
      · exact foldl_choice_isSome (by rw [if_pos hP]; rfl)
      · exact ih hx'

theorem foldl_choice_acc {α : Type _} {P : α → Prop} [DecidablePred P] :
    ∀ (L : List α) (x : α), (∀ a ∈ L, P a → a = x) →
      L.foldl (fun acc a => if P a then some a else acc) (some x) = some x
  | [], _, _ => rfl
  | a :: L, x, h => by
      rw [List.foldl_cons]
      have htail : ∀ b ∈ L, P b → b = x := fun b hb => h b (List.mem_cons_of_mem a hb)
      by_cases hPa : P a
      · rw [if_pos hPa, h a (List.mem_cons_self a L) hPa]
        exact foldl_choice_acc L x htail
      · rw [if_neg hPa]
        exact foldl_choice_acc L x htail

theorem foldl_choice_unique {α : Type _} {P : α → Prop} [DecidablePred P] :
    ∀ (L : List α) (x : α), x ∈ L → (∀ a ∈ L, (P a ↔ a = x)) →
      L.foldl (fun acc a => if P a then some a else acc) none = some x
  | [], _, hx, _ => absurd hx (List.not_mem_nil _)
  | a :: L, x, hx, h => by
      rw [List.foldl_cons]
      have htail : ∀ b ∈ L, (P b ↔ b = x) := fun b hb => h b (List.mem_cons_of_mem a hb)
      by_cases hPa : P a
      · have hax : a = x := (h a (List.mem_cons_self a L)).1 hPa
        rw [if_pos hPa, hax]
        exact foldl_choice_acc L x fun b hb hPb => (htail b hb).1 hPb
      · rw [if_neg hPa]
        have hax : a ≠ x := fun hax => hPa ((h a (List.mem_cons_self a L)).2 hax)
        rcases List.mem_cons.1 hx with rfl | hx'
        · exact absurd rfl hax
        · exact foldl_choice_unique L x hx' htail

/-! ## Characterisation of `layer_dict` and `layer_names` -/

theorem layer_dict_eq_some {table : List String} {s : String} {i : Nat}
    (h : layer_dict table s = some i) :
    i < table.length ∧ table.getD i "" = s := by
  rcases foldl_choice_some h with h' | h'
  · exact ⟨List.mem_range.1 h'.1, h'.2⟩
  · cases h'

theorem layer_dict_of_not_mem {table : List String} {s : String}
    (h : s ∉ table) : layer_dict table s = none := by
  refine foldl_choice_eq_none _ fun n hn hne => h ?_
  have hlt : n < table.length := List.mem_range.1 hn
  rw [List.getD_eq_getElem _ _ hlt] at hne
  exact hne ▸ List.getElem_mem hlt

theorem layer_dict_getD {table : List String} (hnd : table.Nodup) {i : Nat}
    (h : i < table.length) :
    layer_dict table (table.getD i "") = some i := by
  refine foldl_choice_unique _ _ (List.mem_range.2 h) fun n hn => ?_
  have hn' : n < table.length := List.mem_range.1 hn
  rw [List.getD_eq_getElem _ _ hn', List.getD_eq_getElem _ _ h]
  exact hnd.getElem_inj_iff

theorem layer_dict_isSome_of_mem {table : List String} {s : String}
    (h : s ∈ table) : (layer_dict table s).isSome := by
  obtain ⟨n, hn, hs⟩ := List.mem_iff_getElem.1 h
  refine foldl_choice_isSome_of_mem (x := n) (List.mem_range.2 hn) ?_
  rw [List.getD_eq_getElem _ _ hn]
  exact hs

theorem layer_names_eq {table : List String} (hnd : table.Nodup) {i : Nat}
    (h : i < table.length) :
    layer_names table i = some (table.getD i "") := by
  have hmem : table.getD i "" ∈ table := by
    rw [List.getD_eq_getElem _ _ h]; exact List.getElem_mem h
  refine foldl_choice_unique _ _ hmem fun s hs => ?_
  constructor
  · intro hdict
    exact ((layer_dict_eq_some hdict).2).symm
  · rintro rfl
    exact layer_dict_getD hnd h

/-! ## Hexadecimal formatting and parsing

`_to_LayerSet` formats the bitset with Python's `'{0:013x}'.format(bitset)`:
big-endian lowercase hexadecimal, left zero-padded to a minimum width of 13
digits.  The digits are produced least-significant first by `toHexAux`
(with `n` itself as fuel, enough since `n / 16` shrinks) and reversed. -/

/-- The sixteen lowercase hexadecimal digit characters, in value order. -/
def hexChars : List Char := "0123456789abcdef".toList

/-- The lowercase hexadecimal digit character of a value `d < 16`. -/
def hexChar (d : Nat) : Char := hexChars.getD d '0'

/-- The value of a hexadecimal digit character, `none` if not a digit. -/
def hexVal (c : Char) : Option Nat := hexChars.findIdx? (fun x => x == c)

/-- Little-endian hexadecimal digits of `n` (empty for `0`); `fuel ≥ n`. -/
def toHexAux : Nat → Nat → List Char
  | 0, _ => []
  | fuel + 1, n => if n = 0 then [] else hexChar (n % 16) :: toHexAux fuel (n / 16)

/-- Python `'{0:0{width}x}'.format(n)`: big-endian lowercase hexadecimal,
left zero-padded to a minimum of `width` digits (never truncated). -/
def hexFormat (width n : Nat) : List Char :=
  let ds := (toHexAux n n).reverse
  let ds := if ds = [] then ['0'] else ds
  List.replicate (width - ds.length) '0' ++ ds

/-- Parse a big-endian hexadecimal digit string; `none` on a non-digit. -/
def parseHexNat (s : List Char) : Option Nat :=
  s.foldlM (fun acc c => (hexVal c).map (fun d => acc * 16 + d)) 0

/-- Modelled from the spec: the host `LSET::ParseHex(hex, len)` parses the
big-endian hexadecimal string into the layer bitset; the `LSET` is a bitset
of `nbits = LAYER_ID_COUNT` slots, so higher bits are dropped.  The `LSET`
itself is modelled as the bitset integer. -/
def ParseHex (nbits : Nat) (s : List Char) : Option Nat :=
  (parseHexNat s).map (fun b => b % 2 ^ nbits)

/-! ## The layer-set codec `_to_LayerSet` / `_from_LayerSet` -/

/-- Lines 84–87 of `_to_LayerSet`: accumulate `bitset |= 1 << _get_layer(l)`
over the given layers (a failed lookup raises, i.e. yields `none`), then
format the bitset as `'{0:013x}'.format(bitset)`. -/
def _to_LayerSet_hexset (table : List String) (layers : List LayerArg) : Option (List Char) :=
  (layers.foldlM
    (fun bitset l => (_get_layer table l).map (fun i => bitset ||| (1 <<< i))) 0).map
    (hexFormat 13)

/-- `_to_LayerSet(layers)`: build the hex string and hand it to the host's
`lset.ParseHex(hexset, len(hexset))`; the resulting `LSET` is modelled as
its bitset integer. -/
def _to_LayerSet (table : List String) (layers : List LayerArg) : Option Nat :=
  (_to_LayerSet_hexset table layers).bind (ParseHex table.length)

/-- Modelled from the spec: the host `LSET::FmtBin()` prints the bitset's
`nbits` binary digits most-significant first.  (The real output groups
digits with separator characters; `_from_LayerSet` immediately filters the
output down to its `'0'`/`'1'` characters, so the separators are dropped
either way and are not modelled.) -/
def FmtBin (nbits : Nat) (lset : Nat) : List Char :=
  (List.range nbits).reverse.map (fun i => if lset.testBit i then '1' else '0')

/-- `_from_LayerSet(layerset)`: keep the `'0'`/`'1'` characters of
`FmtBin`, reverse (least-significant bit first), collect the positions
holding `'1'`, and map each through `layer_names`. -/
def _from_LayerSet (table : List String) (lset : Nat) : Option (List String) :=
  let mask := ((FmtBin table.length lset).filter (fun c => c == '0' || c == '1')).reverse
  let ids := (mask.enum.filter (fun p => p.2 == '1')).map (fun p => p.1)
  ids.mapM (layer_names table)

/-! ## Round-trip of the hexadecimal format -/

/-- The semantic value of a digit character (0 for a non-digit). -/
def hexValD (c : Char) : Nat := (hexVal c).getD 0

theorem hexVal_hexChar : ∀ d < 16, hexVal (hexChar d) = some d := by decide

theorem hexChar_mem_hexChars : ∀ d < 16, hexChar d ∈ hexChars := by decide

theorem parseHexNat_foldlM : ∀ (s : List Char) (acc : Nat),
    (∀ c ∈ s, (hexVal c).isSome) →
    s.foldlM (fun acc c => (hexVal c).map (fun d => acc * 16 + d)) acc =
      some (s.foldl (fun acc c => acc * 16 + hexValD c) acc)
  | [], acc, _ => rfl
  | c :: s, acc, h => by
      obtain ⟨d, hd⟩ := Option.isSome_iff_exists.1 (h c (List.mem_cons_self c s))
      rw [List.foldlM_cons, List.foldl_cons, hd]
      have hval : hexValD c = d := by rw [hexValD, hd]; rfl
      rw [hval]
      exact parseHexNat_foldlM s (acc * 16 + d) fun b hb => h b (List.mem_cons_of_mem c hb)

theorem toHexAux_mem : ∀ (fuel n : Nat), ∀ c ∈ toHexAux fuel n,
    ∃ d, d < 16 ∧ c = hexChar d
  | 0, _, _, h => absurd h (List.not_mem_nil _)
  | fuel + 1, n, c, h => by
      rw [toHexAux] at h
      by_cases hn : n = 0
      · rw [if_pos hn] at h
        cases h
      · rw [if_neg hn] at h
        rcases List.mem_cons.1 h with rfl | h'
        · exact ⟨n % 16, Nat.mod_lt _ (by norm_num), rfl⟩
        · exact toHexAux_mem fuel (n / 16) c h'

theorem toHexAux_foldr : ∀ (fuel n : Nat), n ≤ fuel →
    (toHexAux fuel n).foldr (fun c acc => acc * 16 + hexValD c) 0 = n
  | 0, n, h => by
      interval_cases n
      rfl
  | fuel + 1, n, h => by
      rw [toHexAux]
      by_cases hn : n = 0
      · rw [if_pos hn, hn]; rfl
      · rw [if_neg hn, List.foldr_cons]
        have hdiv : n / 16 ≤ fuel := by
          have h1 : n / 16 < n := Nat.div_lt_self (Nat.pos_of_ne_zero hn) (by norm_num)
          omega
        rw [toHexAux_foldr fuel (n / 16) hdiv]
        have hmod : hexValD (hexChar (n % 16)) = n % 16 := by
          rw [hexValD, hexVal_hexChar (n % 16) (Nat.mod_lt _ (by norm_num))]; rfl
        rw [hmod]
        have := Nat.div_add_mod n 16
        omega

theorem toHexAux_length : ∀ (fuel n k : Nat), n < 16 ^ k →
    (toHexAux fuel n).length ≤ k
  | 0, _, _, _ => by simp [toHexAux]
  | fuel + 1, n, k, h => by
      rw [toHexAux]
      by_cases hn : n = 0
      · simp [hn]
      · rw [if_neg hn]
        match k with
        | 0 =>
            rw [pow_zero] at h
            exact absurd (Nat.lt_one_iff.1 h) hn
        | k + 1 =>
            have hdiv : n / 16 < 16 ^ k := by
              rw [Nat.div_lt_iff_lt_mul (by norm_num : 0 < 16)]
              calc n < 16 ^ (k + 1) := h
                _ = 16 ^ k * 16 := by rw [pow_succ]
            simpa using toHexAux_length fuel (n / 16) k hdiv

theorem foldl_hex_replicate_zero : ∀ (k : Nat),
    (List.replicate k '0').foldl (fun acc c => acc * 16 + hexValD c) 0 = 0
  | 0 => rfl
  | k + 1 => by
      rw [List.replicate_succ, List.foldl_cons]
      exact foldl_hex_replicate_zero k

theorem hexFormat_foldl (width n : Nat) :
    (hexFormat width n).foldl (fun acc c => acc * 16 + hexValD c) 0 = n := by
  rw [hexFormat]
  by_cases hn : n = 0
  · subst hn
    rw [show toHexAux 0 0 = [] from rfl]
    simp only [List.reverse_nil, if_pos rfl]
    rw [List.foldl_append, foldl_hex_replicate_zero]
    rfl
  · have hne : (toHexAux n n).reverse ≠ [] := by
      obtain ⟨m, rfl⟩ := Nat.exists_eq_succ_of_ne_zero hn
      rw [toHexAux, if_neg hn]
      simp
    simp only [if_neg hne]
    rw [List.foldl_append, foldl_hex_replicate_zero, List.foldl_reverse]
    have : (fun (c : Char) (acc : Nat) => (fun acc c => acc * 16 + hexValD c) acc c) =
        (fun c acc => acc * 16 + hexValD c) := rfl
    rw [this]
    exact toHexAux_foldr n n (le_refl n)

theorem hexFormat_isSome (width n : Nat) :
    ∀ c ∈ hexFormat width n, (hexVal c).isSome := by
  intro c hc
  rw [hexFormat] at hc
  rcases List.mem_append.1 hc with hc | hc
  · rw [(List.mem_replicate.1 hc).2]; rfl
  · by_cases hne : (toHexAux n n).reverse = []
    · rw [if_pos hne] at hc
      rcases List.mem_singleton.1 hc with rfl
      rfl
    · rw [if_neg hne] at hc
      obtain ⟨d, hd, rfl⟩ := toHexAux_mem n n c (List.mem_reverse.1 hc)
      rw [hexVal_hexChar d hd]
      rfl

theorem parseHexNat_hexFormat (width n : Nat) :
    parseHexNat (hexFormat width n) = some n := by
  rw [parseHexNat, parseHexNat_foldlM _ _ (hexFormat_isSome width n), hexFormat_foldl]

theorem hexFormat_length {width n : Nat} (hw : 0 < width) (h : n < 16 ^ width) :
    (hexFormat width n).length = width := by
  rw [hexFormat]
  by_cases hne : (toHexAux n n).reverse = []
  · simp only [if_pos hne, List.length_append, List.length_replicate, List.length_singleton]
    omega
  · simp only [if_neg hne, List.length_append, List.length_replicate, List.length_reverse]
    have := toHexAux_length n n width h
    omega

theorem hexFormat_mem_hexChars {width n : Nat} :
    ∀ c ∈ hexFormat width n, c ∈ hexChars := by
  intro c hc
  rw [hexFormat] at hc
  rcases List.mem_append.1 hc with hc | hc
  · rw [(List.mem_replicate.1 hc).2]
    decide
  · by_cases hne : (toHexAux n n).reverse = []
    · rw [if_pos hne] at hc
      rcases List.mem_singleton.1 hc with rfl
      decide
    · rw [if_neg hne] at hc
      obtain ⟨d, hd, rfl⟩ := toHexAux_mem n n c (List.mem_reverse.1 hc)
      exact hexChar_mem_hexChars d hd

/-! ## The bitset accumulated by `_to_LayerSet` -/

theorem bitset_foldlM (table : List String) :
    ∀ (S : List String) (acc : Nat),
    (∀ s ∈ S, (layer_dict table s).isSome) →
    (S.map LayerArg.name).foldlM
        (fun bitset l => (_get_layer table l).map (fun i => bitset ||| (1 <<< i))) acc =
      some (S.foldl (fun b s => b ||| (1 <<< (layer_dict table s).getD 0)) acc)
  | [], _, _ => rfl
  | s :: S, acc, h => by
      obtain ⟨i, hi⟩ := Option.isSome_iff_exists.1 (h s (List.mem_cons_self s S))
      rw [List.map_cons, List.foldlM_cons, List.foldl_cons]
      rw [show _get_layer table (LayerArg.name s) = layer_dict table s from rfl, hi]
      show (List.map LayerArg.name S).foldlM
          (fun bitset l => (_get_layer table l).map (fun i => bitset ||| (1 <<< i)))
          (acc ||| 1 <<< i) =
        some (S.foldl (fun b s => b ||| (1 <<< (layer_dict table s).getD 0))
          (acc ||| 1 <<< i))
      exact bitset_foldlM table S (acc ||| 1 <<< i)
        fun b hb => h b (List.mem_cons_of_mem s hb)

theorem bitset_testBit (table : List String) :
    ∀ (S : List String) (acc i : Nat),
    (∀ s ∈ S, (layer_dict table s).isSome) →
    (Nat.testBit (S.foldl (fun b s => b ||| (1 <<< (layer_dict table s).getD 0)) acc) i = true ↔
      Nat.testBit acc i = true ∨ ∃ s ∈ S, layer_dict table s = some i)
  | [], acc, i, _ => by simp
  | s :: S, acc, i, h => by
      obtain ⟨j, hj⟩ := Option.isSome_iff_exists.1 (h s (List.mem_cons_self s S))
      rw [List.foldl_cons,
        bitset_testBit table S _ i (fun b hb => h b (List.mem_cons_of_mem s hb))]
      have hstep : Nat.testBit (acc ||| 1 <<< (layer_dict table s).getD 0) i = true ↔
          (Nat.testBit acc i = true ∨ layer_dict table s = some i) := by
        rw [hj]
        show Nat.testBit (acc ||| 1 <<< j) i = true ↔ _
        rw [Nat.testBit_or, Nat.shiftLeft_eq, one_mul, Nat.testBit_two_pow]
        simp only [Bool.or_eq_true, decide_eq_true_eq, Option.some_inj]
      constructor
      · rintro (h' | ⟨t, ht, hti⟩)
        · rcases hstep.1 h' with h'' | h''
          · exact Or.inl h''
          · exact Or.inr ⟨s, List.mem_cons_self s S, h''⟩
        · exact Or.inr ⟨t, List.mem_cons_of_mem s ht, hti⟩
      · rintro (h' | ⟨t, ht, hti⟩)
        · exact Or.inl (hstep.2 (Or.inl h'))
        · rcases List.mem_cons.1 ht with rfl | ht'
          · exact Or.inl (hstep.2 (Or.inr hti))
          · exact Or.inr ⟨t, ht', hti⟩

theorem bitset_lt (table : List String) (S : List String)
    (h : ∀ s ∈ S, (layer_dict table s).isSome) :
    S.foldl (fun b s => b ||| (1 <<< (layer_dict table s).getD 0)) 0 < 2 ^ table.length := by
  refine Nat.lt_pow_two_of_testBit _ fun i hi => ?_
  by_contra hb
  rw [Bool.not_eq_false, bitset_testBit table S 0 i h] at hb
  rcases hb with hb | ⟨s, _, hs⟩
  · rw [Nat.zero_testBit] at hb
    cases hb
  · exact absurd (layer_dict_eq_some hs).1 (by omega)

/-! ## Evaluation of `_to_LayerSet` and `_from_LayerSet` -/

theorem to_LayerSet_eq (table : List String) (S : List String)
    (h : ∀ s ∈ S, s ∈ table) :
    _to_LayerSet table (S.map LayerArg.name) =
      some (S.foldl (fun b s => b ||| (1 <<< (layer_dict table s).getD 0)) 0) := by
  have hsome : ∀ s ∈ S, (layer_dict table s).isSome :=
    fun s hs => layer_dict_isSome_of_mem (h s hs)
  rw [_to_LayerSet, _to_LayerSet_hexset, bitset_foldlM table S 0 hsome]
  show ParseHex table.length
      (hexFormat 13 (S.foldl (fun b s => b ||| (1 <<< (layer_dict table s).getD 0)) 0)) = _
  rw [ParseHex, parseHexNat_hexFormat]
  show some (_ % 2 ^ table.length) = _
  rw [Nat.mod_eq_of_lt (bitset_lt table S hsome)]

theorem mapM_eq_map {α β : Type _} (g : α → Option β) (f : α → β) :
    ∀ (L : List α), (∀ a ∈ L, g a = some (f a)) → L.mapM g = some (L.map f)
  | [], _ => rfl
  | a :: L, H => by
      rw [List.mapM_cons, H a (List.mem_cons_self a L),
        mapM_eq_map g f L fun b hb => H b (List.mem_cons_of_mem a hb), List.map_cons]
      rfl

theorem from_LayerSet_ids (table : List String) (B : Nat) :
    _from_LayerSet table B =
      ((List.range table.length).filter (fun i => B.testBit i)).mapM (layer_names table) := by
  rw [_from_LayerSet, FmtBin]
  have hfilter :
      (((List.range table.length).reverse.map
          (fun i => if B.testBit i then '1' else '0')).filter
        (fun c => c == '0' || c == '1')) =
      ((List.range table.length).reverse.map (fun i => if B.testBit i then '1' else '0')) := by
    refine List.filter_eq_self.2 fun c hc => ?_
    obtain ⟨i, _, rfl⟩ := List.mem_map.1 hc
    by_cases hb : B.testBit i
    · rw [if_pos hb]; rfl
    · rw [if_neg hb]; rfl
  rw [hfilter, List.map_reverse, List.reverse_reverse]
  have henum : ((List.range table.length).map
        (fun i => if B.testBit i then '1' else '0')).enum =
      (List.range table.length).map
        (fun i => (i, if B.testBit i then '1' else '0')) := by
    apply List.ext_getElem?
    intro i
    rw [List.getElem?_enum, List.getElem?_map, List.getElem?_map]
    by_cases hi : i < table.length
    · rw [List.getElem?_range hi]
      rfl
    · have hnone : (List.range table.length)[i]? = none := by
        rw [List.getElem?_eq_none]
        simpa using Nat.le_of_not_lt hi
      rw [hnone]
      rfl
  rw [henum, List.filter_map]
  have hpred : ((fun p : Nat × Char => p.2 == '1') ∘
        (fun i => (i, if B.testBit i then '1' else '0'))) =
      (fun i => B.testBit i) := by
    funext i
    by_cases hb : B.testBit i
    · simp [hb]
    · simp [hb]
  rw [hpred, List.map_map]
  have hfst : ((fun p : Nat × Char => p.1) ∘
      fun i => (i, if B.testBit i then '1' else '0')) = (fun i : Nat => i) := rfl
  rw [hfst, List.map_id']

theorem from_LayerSet_eq (table : List String) (hnd : table.Nodup) (B : Nat) :
    _from_LayerSet table B =
      some (((List.range table.length).filter (fun i => B.testBit i)).map
        (fun i => table.getD i "")) := by
  rw [from_LayerSet_ids]
  refine mapM_eq_map _ _ _ fun i hi => ?_
  have hiN : i < table.length := List.mem_range.1 (List.mem_of_mem_filter hi)
  exact layer_names_eq hnd hiN

/-! ## Claim C1: round trip of the layer-set codec -/

theorem testBit_iff_mem (table S : List String) (hnd : table.Nodup)
    (hS : ∀ s ∈ S, s ∈ table) {i : Nat} (hi : i < table.length) :
    (Nat.testBit (S.foldl (fun b s => b ||| (1 <<< (layer_dict table s).getD 0)) 0) i = true ↔
      table.getD i "" ∈ S) := by
  have hsome : ∀ s ∈ S, (layer_dict table s).isSome :=
    fun s hs => layer_dict_isSome_of_mem (hS s hs)
  rw [bitset_testBit table S 0 i hsome]
  constructor
  · rintro (hb | ⟨s, hsS, hsi⟩)
    · rw [Nat.zero_testBit] at hb
      cases hb
    · rw [(layer_dict_eq_some hsi).2]
      exact hsS
  · intro hmem
    exact Or.inr ⟨table.getD i "", hmem, layer_dict_getD hnd hi⟩

/-- C1: for every subset `S` of the layer table, given as layer names in any
order and possibly with duplicates, decoding the encoding of `S` yields
exactly the set of layer names of `S`, returned ordered by ascending layer
index (the filter of `List.range` fixes that order); duplicates in `S` do
not change the result. -/
theorem decode_encode_roundtrip (table S : List String)
    (hnd : table.Nodup) (hS : ∀ s ∈ S, s ∈ table) :
    ∃ out : List String,
      (_to_LayerSet table (S.map LayerArg.name)).bind (_from_LayerSet table) = some out ∧
      out = ((List.range table.length).filter
          (fun i => decide (table.getD i "" ∈ S))).map (fun i => table.getD i "") ∧
      ∀ t : String, t ∈ out ↔ t ∈ S := by
  have henc := to_LayerSet_eq table S hS
  have hdec := from_LayerSet_eq table hnd
      (S.foldl (fun b s => b ||| (1 <<< (layer_dict table s).getD 0)) 0)
  refine ⟨_, by rw [henc]; exact hdec, ?_, ?_⟩
  · have hfil : (List.range table.length).filter
        (fun i => Nat.testBit
          (S.foldl (fun b s => b ||| (1 <<< (layer_dict table s).getD 0)) 0) i) =
        (List.range table.length).filter (fun i => decide (table.getD i "" ∈ S)) := by
      refine List.filter_congr fun i hi => ?_
      have hiN : i < table.length := List.mem_range.1 hi
      cases hb : Nat.testBit
          (S.foldl (fun b s => b ||| (1 <<< (layer_dict table s).getD 0)) 0) i
      · symm
        rw [decide_eq_false_iff_not]
        intro hmem
        rw [(testBit_iff_mem table S hnd hS hiN).2 hmem] at hb
        cases hb
      · symm
        rw [decide_eq_true_eq]
        exact (testBit_iff_mem table S hnd hS hiN).1 hb
    rw [hfil]
  · intro t
    constructor
    · intro ht
      obtain ⟨i, hi, rfl⟩ := List.mem_map.1 ht
      have hiN : i < table.length := List.mem_range.1 (List.mem_of_mem_filter hi)
      exact (testBit_iff_mem table S hnd hS hiN).1 (List.of_mem_filter hi)
    · intro ht
      obtain ⟨i, hiN, hit⟩ := List.mem_iff_getElem.1 (hS t ht)
      have hgetD : table.getD i "" = t := by
        rw [List.getD_eq_getElem _ _ hiN]; exact hit
      refine List.mem_map.2 ⟨i, List.mem_filter.2 ⟨List.mem_range.2 hiN, ?_⟩, hgetD⟩
      exact (testBit_iff_mem table S hnd hS hiN).2 (by rw [hgetD]; exact ht)

/-- Witness for C1 at a concrete five-layer table and a duplicate-bearing
subset. -/
theorem decode_encode_roundtrip_witness :
    (["F.Cu", "In1.Cu", "B.Cu", "F.SilkS", "Edge.Cuts"] : List String).Nodup ∧
    (∀ s ∈ ["Edge.Cuts", "F.Cu", "Edge.Cuts"],
      s ∈ ["F.Cu", "In1.Cu", "B.Cu", "F.SilkS", "Edge.Cuts"]) ∧
    ∃ out : List String,
      (_to_LayerSet ["F.Cu", "In1.Cu", "B.Cu", "F.SilkS", "Edge.Cuts"]
          (["Edge.Cuts", "F.Cu", "Edge.Cuts"].map LayerArg.name)).bind
        (_from_LayerSet ["F.Cu", "In1.Cu", "B.Cu", "F.SilkS", "Edge.Cuts"]) = some out ∧
      out = ((List.range
          (["F.Cu", "In1.Cu", "B.Cu", "F.SilkS", "Edge.Cuts"] : List String).length).filter
          (fun i => decide
            ((["F.Cu", "In1.Cu", "B.Cu", "F.SilkS", "Edge.Cuts"] : List String).getD i "" ∈
              ["Edge.Cuts", "F.Cu", "Edge.Cuts"]))).map
          (fun i => (["F.Cu", "In1.Cu", "B.Cu", "F.SilkS", "Edge.Cuts"] : List String).getD i "") ∧
      ∀ t : String, t ∈ out ↔ t ∈ ["Edge.Cuts", "F.Cu", "Edge.Cuts"] :=
  ⟨by decide, by decide,
    decode_encode_roundtrip _ _ (by decide) (by decide)⟩

/-! ## Claim C5: fixed 13-digit width of the encoding -/

/-- C5: for every collection of known layer names, the hex string built by
`_to_LayerSet` is a zero-padded lowercase hexadecimal string of exactly 13
digits (the host defines at most 52 layer slots, and 13 hex digits carry
52 bits); encoding the empty collection yields the all-zero string, and
decoding the all-zero string yields the empty sequence. -/
theorem encode_fixed_width (table S : List String)
    (hlen : table.length ≤ 52) (hS : ∀ s ∈ S, s ∈ table) :
    (∃ hexset : List Char,
      _to_LayerSet_hexset table (S.map LayerArg.name) = some hexset ∧
      hexset.length = 13 ∧ ∀ c ∈ hexset, c ∈ hexChars) ∧
    _to_LayerSet_hexset table ([] : List LayerArg) = some (List.replicate 13 '0') ∧
    (ParseHex table.length (List.replicate 13 '0')).bind (_from_LayerSet table) =
      some ([] : List String) := by
  have hsome : ∀ s ∈ S, (layer_dict table s).isSome :=
    fun s hs => layer_dict_isSome_of_mem (hS s hs)
  have hzero : hexFormat 13 0 = List.replicate 13 '0' := by decide
  refine ⟨?_, ?_, ?_⟩
  · rw [_to_LayerSet_hexset, bitset_foldlM table S 0 hsome]
    refine ⟨_, rfl, ?_, hexFormat_mem_hexChars⟩
    refine hexFormat_length (by norm_num) ?_
    calc S.foldl (fun b s => b ||| (1 <<< (layer_dict table s).getD 0)) 0
        < 2 ^ table.length := bitset_lt table S hsome
      _ ≤ 2 ^ 52 := Nat.pow_le_pow_right (by norm_num) hlen
      _ = 16 ^ 13 := by norm_num
  · rw [_to_LayerSet_hexset]
    show some (hexFormat 13 0) = _
    rw [hzero]
  · rw [ParseHex, ← hzero, parseHexNat_hexFormat]
    show _from_LayerSet table (0 % 2 ^ table.length) = _
    rw [Nat.zero_mod, from_LayerSet_ids]
    have hfil : (List.range table.length).filter (fun i => Nat.testBit 0 i) = [] := by
      refine List.filter_eq_nil_iff.2 fun i _ => ?_
      rw [Nat.zero_testBit]
      exact Bool.false_ne_true
    rw [hfil]
    rfl

/-- Witness for C5 at a concrete five-layer table. -/
theorem encode_fixed_width_witness :
    (["F.Cu", "In1.Cu", "B.Cu", "F.SilkS", "Edge.Cuts"] : List String).length ≤ 52 ∧
    (∃ hexset : List Char,
      _to_LayerSet_hexset ["F.Cu", "In1.Cu", "B.Cu", "F.SilkS", "Edge.Cuts"]
          (["B.Cu", "F.Cu"].map LayerArg.name) = some hexset ∧
      hexset.length = 13 ∧ ∀ c ∈ hexset, c ∈ hexChars) ∧
    _to_LayerSet_hexset ["F.Cu", "In1.Cu", "B.Cu", "F.SilkS", "Edge.Cuts"]
        ([] : List LayerArg) = some (List.replicate 13 '0') ∧
    (ParseHex (["F.Cu", "In1.Cu", "B.Cu", "F.SilkS", "Edge.Cuts"] : List String).length
        (List.replicate 13 '0')).bind
      (_from_LayerSet ["F.Cu", "In1.Cu", "B.Cu", "F.SilkS", "Edge.Cuts"]) =
      some ([] : List String) :=
  ⟨by decide, encode_fixed_width _ _ (by decide) (by decide)⟩

/-! ## Claims C7 and C3: `_get_layer` on unknown names and on indices -/

/-- C7: for a layer name not present in the table, `_get_layer` fails with
a `KeyError` (a `LookupError`), modelled by `none`; it never produces a
default index. -/
theorem get_layer_unknown_name (table : List String) (s : String)
    (h : s ∉ table) : _get_layer table (LayerArg.name s) = none :=
  layer_dict_of_not_mem h

/-- Witness for C7: the name `"F.Paste"` is absent from a three-layer
table and the lookup yields no value. -/
theorem get_layer_unknown_name_witness :
    ("F.Paste" ∉ (["F.Cu", "B.Cu", "Edge.Cuts"] : List String)) ∧
    _get_layer ["F.Cu", "B.Cu", "Edge.Cuts"] (LayerArg.name "F.Paste") = none :=
  ⟨by decide, get_layer_unknown_name _ _ (by decide)⟩

/-- C3 (code bug): the docstring of `_get_layer` says an integer layer
index is returned unchanged, but `layer_dict` has only string keys, so an
integer argument raises `KeyError` (modelled by `none`) instead of being
returned; looking up a known name does return that name's index. -/
theorem get_layer_index_keyerror :
    _get_layer ["F.Cu", "B.Cu", "F.SilkS"] (LayerArg.idx 0) = none ∧
    _get_layer ["F.Cu", "B.Cu", "F.SilkS"] (LayerArg.name "B.Cu") = some 1 := by
  constructor
  · rfl
  · decide

/-! ## Claim C4: `inch_to_mm` / `mm_to_inch`

A Python value accepted by the converters is a numeric scalar or an
arbitrarily nested sequence.  `val * 25.4` succeeds on a scalar; on a
sequence it raises `TypeError`, caught to recurse element-wise via the
list comprehension `[inch_to_mm(v) for v in val]` (here the mutual
`_list` functions).  Scalars carry exact rationals (`25.4 = 127/5`). -/

/-- A scalar or an arbitrarily nested sequence of scalars. -/
inductive NVal where
  | num (q : ℚ)
  | seq (l : List NVal)

mutual

/-- `inch_to_mm(val)`: multiply by 25.4, element-wise on sequences. -/
def inch_to_mm : NVal → NVal
  | .num q => .num (q * 25.4)
  | .seq l => .seq (inch_to_mm_list l)

/-- `[inch_to_mm(v) for v in val]`. -/
def inch_to_mm_list : List NVal → List NVal
  | [] => []
  | v :: vs => inch_to_mm v :: inch_to_mm_list vs

end

mutual

/-- `mm_to_inch(val)`: divide by 25.4, element-wise on sequences. -/
def mm_to_inch : NVal → NVal
  | .num q => .num (q / 25.4)
  | .seq l => .seq (mm_to_inch_list l)

/-- `[mm_to_inch(v) for v in val]`. -/
def mm_to_inch_list : List NVal → List NVal
  | [] => []
  | v :: vs => mm_to_inch v :: mm_to_inch_list vs

end

/-- The nesting shape of a value, forgetting the numeric leaves. -/
inductive Shape where
  | leaf
  | node (l : List Shape)

mutual

/-- The shape of a value. -/
def NVal.shape : NVal → Shape
  | .num _ => .leaf
  | .seq l => .node (NVal.shape_list l)

/-- The shapes of a list of values. -/
def NVal.shape_list : List NVal → List Shape
  | [] => []
  | v :: vs => NVal.shape v :: NVal.shape_list vs

end

mutual

theorem mm_to_inch_inch_to_mm : ∀ v : NVal, mm_to_inch (inch_to_mm v) = v
  | .num q => by
      rw [inch_to_mm, mm_to_inch, mul_div_cancel_right₀ q (by norm_num : (25.4 : ℚ) ≠ 0)]
  | .seq l => by
      rw [inch_to_mm, mm_to_inch, mm_to_inch_inch_to_mm_list l]

theorem mm_to_inch_inch_to_mm_list :
    ∀ l : List NVal, mm_to_inch_list (inch_to_mm_list l) = l
  | [] => rfl
  | v :: vs => by
      rw [inch_to_mm_list, mm_to_inch_list, mm_to_inch_inch_to_mm v,
        mm_to_inch_inch_to_mm_list vs]

end

mutual

theorem shape_inch_to_mm : ∀ v : NVal, (inch_to_mm v).shape = v.shape
  | .num _ => rfl
  | .seq l => by
      rw [inch_to_mm, NVal.shape, NVal.shape, shape_inch_to_mm_list l]

theorem shape_inch_to_mm_list :
    ∀ l : List NVal, NVal.shape_list (inch_to_mm_list l) = NVal.shape_list l
  | [] => rfl
  | v :: vs => by
      rw [inch_to_mm_list, NVal.shape_list, NVal.shape_list, shape_inch_to_mm v,
        shape_inch_to_mm_list vs]

end

mutual

theorem shape_mm_to_inch : ∀ v : NVal, (mm_to_inch v).shape = v.shape
  | .num _ => rfl
  | .seq l => by
      rw [mm_to_inch, NVal.shape, NVal.shape, shape_mm_to_inch_list l]

theorem shape_mm_to_inch_list :
    ∀ l : List NVal, NVal.shape_list (mm_to_inch_list l) = NVal.shape_list l
  | [] => rfl
  | v :: vs => by
      rw [mm_to_inch_list, NVal.shape_list, NVal.shape_list, shape_mm_to_inch v,
        shape_mm_to_inch_list vs]

end

/-- C4: for every scalar or arbitrarily nested sequence of numeric leaves,
`mm_to_inch (inch_to_mm v) = v` exactly, and both conversions preserve the
nesting shape of their input at every depth. -/
theorem inch_mm_roundtrip (v : NVal) :
    mm_to_inch (inch_to_mm v) = v ∧
    (inch_to_mm v).shape = v.shape ∧
    (mm_to_inch v).shape = v.shape :=
  ⟨mm_to_inch_inch_to_mm v, shape_inch_to_mm v, shape_mm_to_inch v⟩

/-! ## Claim C6: `rotate` -/

/-- `math.radians(x)`: degrees to radians. -/
noncomputable def radians (x : ℝ) : ℝ := x * (Real.pi / 180)

/-- `rotate(coord, angle)`: treat the point as the complex number
`coord[0] + coord[1]*1j`, multiply by `cmath.exp(math.radians(angle)*1j)`,
and return `(real, imag)`. -/
noncomputable def rotate (coord : ℝ × ℝ) (angle : ℝ) : ℝ × ℝ :=
  let c := ((coord.1 : ℂ) + (coord.2 : ℂ) * Complex.I) *
    Complex.exp ((radians angle : ℂ) * Complex.I)
  (c.re, c.im)

theorem rotate_eq (p : ℝ × ℝ) (a : ℝ) :
    rotate p a = (p.1 * Real.cos (radians a) - p.2 * Real.sin (radians a),
      p.1 * Real.sin (radians a) + p.2 * Real.cos (radians a)) := by
  rw [rotate]
  have hre : (Complex.exp ((radians a : ℂ) * Complex.I)).re = Real.cos (radians a) :=
    Complex.exp_ofReal_mul_I_re (radians a)
  have him : (Complex.exp ((radians a : ℂ) * Complex.I)).im = Real.sin (radians a) :=
    Complex.exp_ofReal_mul_I_im (radians a)
  simp only [Complex.mul_re, Complex.mul_im, Complex.add_re, Complex.add_im,
    Complex.ofReal_re, Complex.ofReal_im, Complex.I_re, Complex.I_im, hre, him]
  exact Prod.ext (by ring) (by ring)

/-- C6: `rotate` is the standard counter-clockwise rotation about the
origin by the angle in degrees: it matches the rotation-matrix formula,
`rotate p 0 = p`, rotating by `a` then `-a` restores the point, and
`rotate (1,0) 90 = (0,1)`, `rotate (1,0) 180 = (-1,0)` exactly. -/
theorem rotate_spec :
    (∀ (p : ℝ × ℝ) (a : ℝ),
      rotate p a = (p.1 * Real.cos (radians a) - p.2 * Real.sin (radians a),
        p.1 * Real.sin (radians a) + p.2 * Real.cos (radians a)) ∧
      rotate p 0 = p ∧
      rotate (rotate p a) (-a) = p) ∧
    rotate (1, 0) 90 = (0, 1) ∧
    rotate (1, 0) 180 = (-1, 0) := by
  have h90 : radians 90 = Real.pi / 2 := by rw [radians]; ring
  have h180 : radians 180 = Real.pi := by rw [radians]; ring
  refine ⟨fun p a => ⟨rotate_eq p a, ?_, ?_⟩, ?_, ?_⟩
  · rw [rotate_eq]
    have h0 : radians 0 = 0 := by rw [radians]; ring
    rw [h0, Real.cos_zero, Real.sin_zero]
    show (p.1 * 1 - p.2 * 0, p.1 * 0 + p.2 * 1) = p
    rw [mul_one, mul_zero, mul_zero, mul_one, sub_zero, zero_add]
  · rw [rotate_eq p a, rotate_eq]
    have hneg : radians (-a) = -(radians a) := by rw [radians, radians]; ring
    rw [hneg, Real.cos_neg, Real.sin_neg]
    have hpyth := Real.sin_sq_add_cos_sq (radians a)
    obtain ⟨x, y⟩ := p
    simp only []
    rw [Prod.ext_iff]
    constructor
    · show (x * Real.cos (radians a) - y * Real.sin (radians a)) * Real.cos (radians a) -
        (x * Real.sin (radians a) + y * Real.cos (radians a)) * -Real.sin (radians a) = x
      linear_combination x * hpyth
    · show (x * Real.cos (radians a) - y * Real.sin (radians a)) * -Real.sin (radians a) +
        (x * Real.sin (radians a) + y * Real.cos (radians a)) * Real.cos (radians a) = y
      linear_combination y * hpyth
  · rw [rotate_eq, h90, Real.cos_pi_div_two, Real.sin_pi_div_two]
    show ((1 : ℝ) * 0 - 0 * 1, (1 : ℝ) * 1 + 0 * 0) = (0, 1)
    norm_num
  · rw [rotate_eq, h180, Real.cos_pi, Real.sin_pi]
    show ((1 : ℝ) * -1 - 0 * 0, (1 : ℝ) * 0 + 0 * -1) = (-1, 0)
    norm_num

/-! ## Claims C2 and C8: `Board.add_arc` and `Module.add_arc`

Both methods compute
`start_coord = radius * cmath.exp(math.radians(start_angle-90)*1j)` and
`angle = stop_angle - start_angle`, then hand the host
`SetCenter(center)`, `SetArcStart(start_coord)` and `SetAngle(angle*10)`.
The record below collects exactly the values handed to those host setters
(in millimetres; `_point_mm` converts them linearly at the boundary). -/

/-- The values an `add_arc` call hands to the host's arc setters. -/
structure ArcCall where
  center : ℝ × ℝ
  arcStart : ℝ × ℝ
  angle : ℝ
  layer : String
  width : ℝ

/-- `Board.add_arc(center, radius, start_angle, stop_angle, layer, width)`. -/
noncomputable def Board_add_arc (center : ℝ × ℝ) (radius start_angle stop_angle : ℝ)
    (layer : String) (width : ℝ) : ArcCall :=
  let start_coord := (radius : ℂ) *
    Complex.exp ((radians (start_angle - 90) : ℂ) * Complex.I)
  { center := center
    arcStart := (start_coord.re, start_coord.im)
    angle := (stop_angle - start_angle) * 10
    layer := layer
    width := width }

/-- `Module.add_arc(center, radius, start_angle, stop_angle, layer, width)`:
the same computation as `Board.add_arc` (on an `EDGE_MODULE`). -/
noncomputable def Module_add_arc (center : ℝ × ℝ) (radius start_angle stop_angle : ℝ)
    (layer : String) (width : ℝ) : ArcCall :=
  let start_coord := (radius : ℂ) *
    Complex.exp ((radians (start_angle - 90) : ℂ) * Complex.I)
  { center := center
    arcStart := (start_coord.re, start_coord.im)
    angle := (stop_angle - start_angle) * 10
    layer := layer
    width := width }

theorem arc_start_formula (center : ℝ × ℝ) (radius start_angle stop_angle : ℝ)
    (layer : String) (width : ℝ) :
    (Board_add_arc center radius start_angle stop_angle layer width).arcStart =
      (radius * Real.cos (radians (start_angle - 90)),
        radius * Real.sin (radians (start_angle - 90))) := by
  rw [Board_add_arc]
  have hre := Complex.exp_ofReal_mul_I_re (radians (start_angle - 90))
  have him := Complex.exp_ofReal_mul_I_im (radians (start_angle - 90))
  simp only [Complex.mul_re, Complex.mul_im, Complex.ofReal_re, Complex.ofReal_im,
    hre, him]
  exact Prod.ext (by ring) (by ring)

/-- C2 (code bug): the start point handed to `SetArcStart` is computed from
the radius and start angle alone — the code never adds `center`.  At
`center = (1, 0)`, `radius = 8`, `start_angle = -90` the code hands
`(-8, 0)` (both `Board.add_arc` and `Module.add_arc`), which differs from
the specified `center + radius*(cos θ, sin θ) = (-7, 0)`. -/
theorem add_arc_start_ignores_center :
    (Board_add_arc (1, 0) 8 (-90) 90 "F.SilkS" 0.15).arcStart = (-8, 0) ∧
    (Module_add_arc (1, 0) 8 (-90) 90 "F.SilkS" 0.15).arcStart = (-8, 0) ∧
    (Board_add_arc (1, 0) 8 (-90) 90 "F.SilkS" 0.15).arcStart ≠
      (1 + 8 * Real.cos (radians (-90 - 90)), 0 + 8 * Real.sin (radians (-90 - 90))) := by
  have hrad : radians (-90 - 90) = -Real.pi := by rw [radians]; ring
  have hv : (Board_add_arc (1, 0) 8 (-90) 90 "F.SilkS" 0.15).arcStart = (-8, 0) := by
    rw [arc_start_formula, hrad, Real.cos_neg, Real.sin_neg, Real.cos_pi, Real.sin_pi]
    norm_num
  have hv' : (Module_add_arc (1, 0) 8 (-90) 90 "F.SilkS" 0.15).arcStart = (-8, 0) := by
    rw [show (Module_add_arc (1, 0) 8 (-90) 90 "F.SilkS" 0.15).arcStart =
      (Board_add_arc (1, 0) 8 (-90) 90 "F.SilkS" 0.15).arcStart from rfl]
    exact hv
  refine ⟨hv, hv', ?_⟩
  rw [hv, hrad, Real.cos_neg, Real.sin_neg, Real.cos_pi, Real.sin_pi]
  intro hcontra
  have h1 : (-8 : ℝ) = 1 + 8 * -1 := congrArg Prod.fst hcontra
  norm_num at h1

/-- C8: the included angle handed to `SetAngle` is
`(stop_angle - start_angle) * 10`, i.e. tenths of a degree, for both
`Board.add_arc` and `Module.add_arc`. -/
theorem add_arc_angle_tenths (center : ℝ × ℝ) (radius start_angle stop_angle : ℝ)
    (layer : String) (width : ℝ) :
    (Board_add_arc center radius start_angle stop_angle layer width).angle =
      (stop_angle - start_angle) * 10 ∧
    (Module_add_arc center radius start_angle stop_angle layer width).angle =
      (stop_angle - start_angle) * 10 :=
  ⟨rfl, rfl⟩

/-! ## Claim C9: the `Pad.orientation` property -/

/-- The state of the host `D_PAD` relevant to the orientation property.
Modelled from the spec: the host's `GetOrientation`/`SetOrientation` store
and return the orientation value (in tenths of a degree) unchanged, over
exact arithmetic. -/
structure PadState where
  m_Orient : ℚ

/-- Modelled from the spec: host `D_PAD.SetOrientation`. -/
def SetOrientation (p : PadState) (a : ℚ) : PadState := { p with m_Orient := a }

/-- Modelled from the spec: host `D_PAD.GetOrientation`. -/
def GetOrientation (p : PadState) : ℚ := p.m_Orient

/-- The `orientation` property setter: `SetOrientation(value*10)`. -/
def orientation_set (p : PadState) (value : ℚ) : PadState :=
  SetOrientation p (value * 10)

/-- The `orientation` property getter: `GetOrientation()/10.0`. -/
def orientation_get (p : PadState) : ℚ := GetOrientation p / 10

/-- C9: setting a pad's orientation to `a` and reading it back returns `a`
exactly: the setter stores `a*10`, the getter divides by 10. -/
theorem orientation_roundtrip (p : PadState) (a : ℚ) :
    orientation_get (orientation_set p a) = a := by
  rw [orientation_set, orientation_get, SetOrientation, GetOrientation]
  exact mul_div_cancel_right₀ a (by norm_num)

/-! ## Claim C10: `Board.add_track` and `Board.add_polyline`

`add_track` runs `for n in range(len(coords)-1)` and creates one track
segment from `coords[n]` to `coords[n+1]`; `add_polyline` does the same
with graphic lines.  The board mutation is modelled by returning the list
of created objects, in creation order.  Coordinates are in millimetres
(exact rationals here); `width = none` models Python `None` (the host's
current default track width). -/

/-- A track segment as configured by `Board.add_track_segment`. -/
structure TrackSegCall where
  start : ℚ × ℚ
  stop : ℚ × ℚ
  layer : String
  width : Option ℚ

/-- `Board.add_track_segment(start, end, layer, width)`. -/
def Board_add_track_segment (start stop : ℚ × ℚ) (layer : String)
    (width : Option ℚ) : TrackSegCall :=
  { start := start, stop := stop, layer := layer, width := width }

/-- `Board.add_track(coords, layer, width)`: one segment from each
coordinate to the next (`range(len(coords)-1)` is empty for fewer than two
coordinates, also for the empty list since Python's `range(-1)` is empty,
matching `Nat` subtraction). -/
def Board_add_track (coords : List (ℚ × ℚ)) (layer : String)
    (width : Option ℚ) : List TrackSegCall :=
  (List.range (coords.length - 1)).map
    (fun n => Board_add_track_segment (coords.getD n (0, 0)) (coords.getD (n + 1) (0, 0))
      layer width)

/-- A graphic line as configured by `Board.add_line`. -/
structure LineCall where
  start : ℚ × ℚ
  stop : ℚ × ℚ
  layer : String
  width : ℚ

/-- `Board.add_line(start, end, layer, width)`. -/
def Board_add_line (start stop : ℚ × ℚ) (layer : String) (width : ℚ) : LineCall :=
  { start := start, stop := stop, layer := layer, width := width }

/-- `Board.add_polyline(coords, layer, width)`: one graphic line from each
coordinate to the next. -/
def Board_add_polyline (coords : List (ℚ × ℚ)) (layer : String)
    (width : ℚ) : List LineCall :=
  (List.range (coords.length - 1)).map
    (fun n => Board_add_line (coords.getD n (0, 0)) (coords.getD (n + 1) (0, 0))
      layer width)

/-- C10: for a coordinate list of length `k`, `add_track` and
`add_polyline` create exactly `k - 1` segments (`max (k-1) 0`, via `Nat`
subtraction), the `n`-th running from `coords[n]` to `coords[n+1]`; with
fewer than two coordinates nothing is added. -/
theorem add_track_polyline_segments (coords : List (ℚ × ℚ)) (layer : String)
    (width : Option ℚ) (lwidth : ℚ) :
    (Board_add_track coords layer width).length = coords.length - 1 ∧
    (Board_add_polyline coords layer lwidth).length = coords.length - 1 ∧
    (coords.length < 2 →
      Board_add_track coords layer width = [] ∧
      Board_add_polyline coords layer lwidth = []) ∧
    (∀ n, n + 1 < coords.length →
      (Board_add_track coords layer width)[n]? =
        some (Board_add_track_segment (coords.getD n (0, 0)) (coords.getD (n + 1) (0, 0))
          layer width) ∧
      (Board_add_polyline coords layer lwidth)[n]? =
        some (Board_add_line (coords.getD n (0, 0)) (coords.getD (n + 1) (0, 0))
          layer lwidth)) := by
  refine ⟨?_, ?_, ?_, ?_⟩
  · rw [Board_add_track, List.length_map, List.length_range]
  · rw [Board_add_polyline, List.length_map, List.length_range]
  · intro hlt
    have hz : coords.length - 1 = 0 := by omega
    constructor
    · rw [Board_add_track, hz]
      rfl
    · rw [Board_add_polyline, hz]
      rfl
  · intro n hn
    have hn' : n < coords.length - 1 := by omega
    constructor
    · rw [Board_add_track, List.getElem?_map, List.getElem?_range hn']
      rfl
    · rw [Board_add_polyline, List.getElem?_map, List.getElem?_range hn']
      rfl

/-- Witness for C10: a one-point list adds nothing; on a three-point list
the first created segment runs from the first to the second coordinate. -/
theorem add_track_polyline_segments_witness :
    Board_add_track [((0 : ℚ), (0 : ℚ))] "F.Cu" none = [] ∧
    (Board_add_track [((0 : ℚ), (0 : ℚ)), (1, 0), (2, 1)] "F.Cu" none).length = 2 ∧
    (Board_add_track [((0 : ℚ), (0 : ℚ)), (1, 0), (2, 1)] "F.Cu" none)[0]? =
      some (Board_add_track_segment (0, 0) (1, 0) "F.Cu" none) :=
  ⟨((add_track_polyline_segments [((0 : ℚ), (0 : ℚ))] "F.Cu" none 0.15).2.2.1
      (by norm_num)).1,
    (add_track_polyline_segments [((0 : ℚ), (0 : ℚ)), (1, 0), (2, 1)] "F.Cu" none 0.15).1,
    ((add_track_polyline_segments [((0 : ℚ), (0 : ℚ)), (1, 0), (2, 1)] "F.Cu" none 0.15).2.2.2
      0 (by norm_num)).1⟩
